import Mathlib

set_option maxRecDepth 40000

/-!
Verification development for the AI-Doc-Viewer document processor
(`py-processor/app/main.py`): a shallow embedding of the chunker
(`chunk_text`), the PDF extractor page loop (`extract_text_from_pdf`),
the object-storage fetcher (`download_from_minio`, minio branch),
the chunk-and-store step (`embed_document`) and the retrieval service
(`qa`), together with theorems about them.

Python strings are modelled as Lean `String`/`List Char`; Python's
`str.strip`, `str.split`, `str.lower` are re-implemented over character
lists (ASCII whitespace) so that the proofs can proceed by list
induction.  Machine integers are `Int`/`Nat` (no overflow is relevant:
the ints involved are small database identifiers and list lengths).
-/

namespace DocViewer

/-- ASCII whitespace stripped by Python `str.strip()` and split on by
`str.split()` (the unicode cases are irrelevant to the texts handled here). -/
def isPySpace (c : Char) : Bool :=
  c = ' ' || c = '\t' || c = '\n' || c = '\r' || c = '\x0b' || c = '\x0c'

/-- Python `str.strip()` on a character list. -/
def stripChars (l : List Char) : List Char :=
  (((l.dropWhile isPySpace).reverse).dropWhile isPySpace).reverse

/-- Python `text.strip()`. -/
def pyStrip (s : String) : String := ⟨stripChars s.data⟩

/-- Python `text.split('. ')`: split at each (leftmost-first) occurrence of
the two-character delimiter `". "`. -/
def splitDotSpace : List Char → List (List Char)
  | [] => [[]]
  | [c] => [[c]]
  | c :: d :: rest =>
    if c = '.' ∧ d = ' ' then [] :: splitDotSpace rest
    else
      match splitDotSpace (d :: rest) with
      | [] => [[c]]
      | p :: ps => (c :: p) :: ps

/-- Python `s[-k:]` (for `k = 0` Python returns the whole string, since
`s[-0:] = s[0:]`). -/
def pySliceLast (l : List Char) (k : Nat) : List Char :=
  if k = 0 then l else l.drop (l.length - k)

/-- `overlap_text = current_chunk[-overlap:] if len(current_chunk) > overlap
else current_chunk` (main.py line 366). -/
def overlapSeed (ov : Nat) (cur : List Char) : List Char :=
  if ov < cur.length then pySliceLast cur ov else cur

/-- One iteration of the sentence loop of `chunk_text` (main.py lines
361-371); state is (emitted chunks, running chunk). -/
def chunkStep (cs ov : Nat) (st : List (List Char) × List Char) (s : List Char) :
    List (List Char) × List Char :=
  if cs < st.2.length + s.length ∧ st.2 ≠ [] then
    (st.1 ++ [stripChars st.2], overlapSeed ov st.2 ++ ('.' :: ' ' :: s))
  else
    (st.1, if st.2 = [] then s else st.2 ++ ('.' :: ' ' :: s))

/-- `chunk_text` on character lists (main.py lines 350-376). -/
def chunkTextL (l : List Char) (cs ov : Nat) : List (List Char) :=
  if stripChars l = [] then []
  else if stripChars ((splitDotSpace l).foldl (chunkStep cs ov) ([], [])).2 = [] then
    ((splitDotSpace l).foldl (chunkStep cs ov) ([], [])).1
  else
    ((splitDotSpace l).foldl (chunkStep cs ov) ([], [])).1 ++
      [stripChars ((splitDotSpace l).foldl (chunkStep cs ov) ([], [])).2]

/-- `chunk_text(text, chunk_size, overlap)` from main.py: split the text into
sentence-like units on `". "` and greedily pack them into chunks with an
overlap-seeded carry-over. -/
def chunk_text (text : String) (chunk_size overlap : Nat) : List String :=
  (chunkTextL text.data chunk_size overlap).map (fun c => (⟨c⟩ : String))

/-- A close event of the chunk loop: the running chunk `closed` was emitted
(as `stripChars closed`) because appending `trigger` would exceed the chunk
size; the new running chunk was seeded with `seed`.  `startIdx` is the index
(into the sentence list) of the first sentence merged into `closed`. -/
structure CloseEvent where
  startIdx : Nat
  closed : List Char
  trigger : List Char
  seed : List Char
deriving DecidableEq

/-- Instrumented loop state: close events so far, the running chunk, the
sentence index at which the running chunk started, and the number of
sentences consumed. -/
structure ChunkSt where
  events : List CloseEvent
  cur : List Char
  curStart : Nat
  idx : Nat
deriving DecidableEq

/-- Instrumented version of `chunkStep`, recording close events. -/
def chunkStepI (cs ov : Nat) (st : ChunkSt) (s : List Char) : ChunkSt :=
  if cs < st.cur.length + s.length ∧ st.cur ≠ [] then
    ⟨st.events ++ [⟨st.curStart, st.cur, s, overlapSeed ov st.cur ++ ('.' :: ' ' :: s)⟩],
      overlapSeed ov st.cur ++ ('.' :: ' ' :: s), st.idx, st.idx + 1⟩
  else
    ⟨st.events, if st.cur = [] then s else st.cur ++ ('.' :: ' ' :: s),
      st.curStart, st.idx + 1⟩

/-- Run the instrumented chunk loop over all sentences of `l`. -/
def chunkRunL (l : List Char) (cs ov : Nat) : ChunkSt :=
  (splitDotSpace l).foldl (chunkStepI cs ov) ⟨[], [], 0, 0⟩

/-- The emitted chunks together with the sentence index at which each one
started. -/
def chunkAnnotatedL (l : List Char) (cs ov : Nat) : List (Nat × List Char) :=
  ((chunkRunL l cs ov).events.map (fun e => (e.startIdx, stripChars e.closed))) ++
    (if stripChars (chunkRunL l cs ov).cur = [] then []
     else [((chunkRunL l cs ov).curStart, stripChars (chunkRunL l cs ov).cur)])

/-- `big` starts with `pre`. -/
def beginsWith (pre big : List Char) : Prop := ∃ r, big = pre ++ r

/-- Invariant of the instrumented chunk loop: the start indices of the
emitted chunks (and of the running chunk) strictly increase; every emitted
chunk after the first strips to a non-empty string; every new running chunk
begins with the seed recorded by the close event that created it; and every
recorded seed follows the overlap policy. -/
def ChunkInv (ov : Nat) (st : ChunkSt) : Prop :=
  List.Chain' (· < ·) (st.events.map (fun e => e.startIdx) ++ [st.curStart]) ∧
  st.curStart ≤ st.idx ∧
  (st.cur ≠ [] → st.curStart < st.idx) ∧
  (st.events ≠ [] → st.cur ≠ [] ∧ '.' ∈ st.cur) ∧
  (∀ e ∈ st.events.drop 1, stripChars e.closed ≠ []) ∧
  List.Chain' (fun e e2 => beginsWith e.seed e2.closed) st.events ∧
  (∀ e, st.events.getLast? = some e → beginsWith e.seed st.cur) ∧
  (∀ e ∈ st.events, e.seed = overlapSeed ov e.closed ++ ('.' :: ' ' :: e.trigger))

/-- Some chunk has been emitted, or the running chunk holds a
non-whitespace character. -/
def ChunkNe (st : List (List Char) × List Char) : Prop :=
  st.1 ≠ [] ∨ ∃ c ∈ st.2, isPySpace c = false

/-! ### The Text Extractor page loop (`extract_text_from_pdf`) -/

/-- Abstraction of one PDF page as seen by the page loop of
`extract_text_from_pdf` (main.py lines 326-348): `rawText` is the result of
`page.get_text("text") or ""`; `hasImages`/`hasDrawings` abstract
`page.get_images()`/`page.get_drawings()` being non-empty; `ocrOutcome` is
`some s` when rendering + `pytesseract.image_to_string` would return `s`,
and `none` when that `try` block would raise. -/
structure PdfPage where
  rawText : String
  hasImages : Bool
  hasDrawings : Bool
  ocrOutcome : Option String
deriving DecidableEq

/-- The body of the page loop: returns the final page text and whether the
OCR fallback path was entered.  `ocrLibs` abstracts
`Image is not None and pytesseract is not None`. -/
def processPage (ocrLibs : Bool) (p : PdfPage) : String × Bool :=
  if (stripChars p.rawText.data).length < 20 ∧ ocrLibs = true then
    if p.hasImages = true ∨ p.hasDrawings = true then
      match p.ocrOutcome with
      | some ocrText => (pyStrip (p.rawText ++ "\n" ++ ocrText), true)
      | none => (p.rawText, true)
    else (p.rawText, false)
  else (p.rawText, false)

/-- `extract_text_from_pdf`: one `(page_no, text)` entry per page, pages
numbered from 1, each page processed by `processPage`. -/
def extract_text_from_pdf (ocrLibs : Bool) (pages : List PdfPage) :
    List (Nat × String) :=
  pages.enum.map (fun pr => (pr.1 + 1, (processPage ocrLibs pr.2).1))

/-! ### The Source Fetcher (`download_from_minio`, `minio://` branch) -/

/-- Split a character list at the first occurrence of `sep`
(Python `path.split(sep, 1)` yielding two parts), or `none` when `sep` does
not occur (Python yielding one part). -/
def splitFirst (sep : Char) : List Char → Option (List Char × List Char)
  | [] => none
  | c :: rest =>
    if c = sep then some ([], rest)
    else
      match splitFirst sep rest with
      | none => none
      | some (a, b) => some (c :: a, b)

/-- Split a character list at every occurrence of `sep`. -/
def splitOnChar (sep : Char) : List Char → List (List Char)
  | [] => [[]]
  | c :: rest =>
    if c = sep then [] :: splitOnChar sep rest
    else
      match splitOnChar sep rest with
      | [] => [[c]]
      | p :: ps => (c :: p) :: ps

/-- Index of the last `'.'` in the list (Python `name.rfind('.')`,
`none` for -1). -/
def rfindDot : List Char → Option Nat
  | [] => none
  | c :: rest =>
    match rfindDot rest with
    | some i => some (i + 1)
    | none => if c = '.' then some 0 else none

/-- Modelled from Python pathlib: `PurePath(key).name`, the last non-empty,
non-`'.'` slash-separated component of the path. -/
def pathlibName (key : List Char) : List Char :=
  (((splitOnChar '/' key).filter (fun p => p ≠ [] ∧ p ≠ ['.'])).getLastD [])

/-- Modelled from Python pathlib: `PurePath(key).suffix` — the part of the
name from its last `'.'` on, when that dot is neither the first nor the
last character of the name; otherwise the empty string. -/
def pathlibSuffix (key : String) : String :=
  match rfindDot (pathlibName key.data) with
  | some i =>
    if 0 < i ∧ i + 1 < (pathlibName key.data).length
    then ⟨(pathlibName key.data).drop i⟩ else ""
  | none => ""

/-- Outcome of the `minio://` branch of `download_from_minio` (main.py
lines 295-303): either the `ValueError("minio url must be ...")` (the
spec's `InvalidLocatorError`), or a download into a fresh temporary file
created with `tempfile.mktemp(suffix=pathlib.Path(key).suffix)`.  The S3
transfer itself is an external call and is modelled as succeeding; its
failures raise a different (S3) error type, never the locator error. -/
inductive FetchOutcome where
  | invalidLocator (msg : String)
  | downloadedTemp (bucket key suffix : String)
deriving DecidableEq

/-- The `minio://` branch of `download_from_minio`: the characters after
the scheme (`url.partition("minio://")` under the guard
`url.startswith("minio://")`) are split on the first `/` into bucket and
key; no `/` means the locator error, otherwise the object is fetched into
a temp file carrying the key's pathlib suffix. -/
def minioFetch (url : String) : FetchOutcome :=
  match splitFirst '/' (url.data.drop 8) with
  | none => FetchOutcome.invalidLocator "minio url must be minio://bucket/key"
  | some (b, k) =>
    FetchOutcome.downloadedTemp ⟨b⟩ ⟨k⟩ (pathlibSuffix ⟨k⟩)

/-! ### The chunk-and-store step (`embed_document`) -/

/-- Rows of one page as processed by `embed_document` (main.py lines
459-470): pages with empty stripped text are skipped, the others are
chunked with the fixed parameters (300, 30) and each chunk is tagged with
`(document_id, page_no, idx, text)` where `idx` enumerates the page's
chunks. -/
def embed_page_chunks (document_id : Int) (row : Int × String) :
    List (Int × Int × Nat × String) :=
  if stripChars row.2.data = [] then []
  else ((chunk_text row.2 300 30).enum).map
    (fun ic => (document_id, row.1, ic.1, ic.2))

/-- `all_chunks` accumulated over all page rows, in page order. -/
def embed_all_chunks (document_id : Int) (rows : List (Int × String)) :
    List (Int × Int × Nat × String) :=
  (rows.map (embed_page_chunks document_id)).flatten

/-- Helper for `batches100`, structurally recursive on a fuel that bounds
the list length (each step removes at least one element, so the fuel is
never exhausted first). -/
def batches100Fuel {α : Type} : Nat → List α → List (List α)
  | _, [] => []
  | 0, _ :: _ => []
  | fuel + 1, x :: xs => (x :: xs).take 100 :: batches100Fuel fuel ((x :: xs).drop 100)

/-- Python `for i in range(0, len(l), 100): batch = l[i:i+100]`. -/
def batches100 {α : Type} (l : List α) : List (List α) :=
  batches100Fuel l.length l

/-- The records actually passed to
`INSERT INTO chunks(document_id, page_no, text)`: for each 100-chunk batch,
`records = [(r[0], r[1], r[3]) for r in batch]` — document id, page number
and text, the ordinal index `r[2]` being dropped (main.py lines 478-486). -/
def embed_inserted_records (document_id : Int) (rows : List (Int × String)) :
    List (Int × Int × String) :=
  ((batches100 (embed_all_chunks document_id rows)).map
    (fun batch => batch.map (fun r => (r.1, r.2.1, r.2.2.2)))).flatten

/-- One page of text producing two *identical* chunks (each 301 characters:
30 `'o'`s, `". "`, 239 `'z'`s, 30 `'o'`s): the overlap seed of the first
close reproduces the first chunk exactly. -/
def dupB : List Char := List.replicate 239 'z' ++ List.replicate 30 'o'

/-- The repeated chunk text (see `dupB`). -/
def dupC : List Char := List.replicate 30 'o' ++ '.' :: ' ' :: dupB

/-- The page text whose chunking yields the chunk `dupC` twice. -/
def dupText : String := ⟨dupC ++ '.' :: ' ' :: dupB⟩

/-- The repeated chunk as a string. -/
def dupChunk : String := ⟨dupC⟩

/-! ### The Retrieval/Answer Service (`qa`) -/

/-- Python `query.split()`: split on whitespace runs (empty pieces are
discarded by the filter in `queryWordsL`). -/
def splitWs : List Char → List (List Char)
  | [] => [[]]
  | c :: rest =>
    if isPySpace c then [] :: splitWs rest
    else
      match splitWs rest with
      | [] => [[c]]
      | p :: ps => (c :: p) :: ps

/-- `query_words = [word.lower().strip() for word in inp.query.split() if
len(word.strip()) > 1]` (main.py line 521). -/
def queryWordsL (q : List Char) : List (List Char) :=
  (((splitWs q).filter (fun w => w ≠ [])).filter
      (fun w => 1 < (stripChars w).length)).map
    (fun w => stripChars (w.map Char.toLower))

/-- Modelled from PostgreSQL `LIKE`/`ILIKE` semantics, to which each search
word is passed unescaped as the pattern `'%' + word + '%'` (main.py lines
525-527): `'%'` matches any character sequence, `'_'` any single character,
`'\'` escapes the next pattern character; all other characters match
literally.  Case-insensitivity of `ILIKE` is modelled by lowering both the
pattern (the words are already lowered) and the text before matching.  (A
pattern ending in a bare `'\'` raises an error in PostgreSQL; it cannot
arise from `'%' + word + '%'` and the model returns `false` there.) -/
def likeMatch : List Char → List Char → Bool
  | [], t => t.isEmpty
  | p :: ps, t =>
    if p = '%' then t.tails.any (fun suf => likeMatch ps suf)
    else if p = '_' then
      match t with
      | [] => false
      | _ :: ts => likeMatch ps ts
    else if p = '\\' then
      match ps with
      | [] => false
      | q :: ps2 =>
        match t with
        | [] => false
        | c :: ts => (c == q) && likeMatch ps2 ts
    else
      match t with
      | [] => false
      | c :: ts => (c == p) && likeMatch ps ts

/-- `needle` occurs as a contiguous substring of `hay`. -/
def listContains (needle hay : List Char) : Bool :=
  hay.tails.any (fun suf => needle.isPrefixOf suf)

/-- A row of the `chunks` table (id, document_id, page_no, text). -/
structure StoredChunk where
  id : Nat
  document_id : Int
  page_no : Int
  text : String
deriving DecidableEq

/-- A citation of the qa response: `{"documentId": r[1], "page": r[2],
"score": 1.0}`.  The constant float score is modelled as a rational. -/
structure Citation where
  documentId : Int
  page : Int
  score : ℚ
deriving DecidableEq

/-- The stored state visible to `qa`: the ids present in `documents` and
the rows of `chunks` in storage order. -/
structure QaStore where
  documents : List Int
  chunks : List StoredChunk
deriving DecidableEq

/-- The `QaIn` request model (query, optional documentId, top_k = 6 by
default). -/
structure QaIn where
  query : String
  documentId : Option Int
  top_k : Int
deriving DecidableEq

/-- A qa response: either an `HTTPException(status, detail)` or a 200
response `{"answer": ..., "citations": ...}`. -/
inductive QaResult where
  | httpError (status : Nat) (detail : String)
  | ok (answer : String) (citations : List Citation)
deriving DecidableEq

/-- Fixed answer for queries with no usable search term. -/
def moreSpecificAnswer : String :=
  "Please provide a more specific question with meaningful keywords."

/-- Fixed answer when the chunks table is empty. -/
def noDocsAnswer : String :=
  "No documents have been processed yet. Please upload and process a document first."

/-- Fixed answer when the requested document id is unknown. -/
def docNotFoundAnswer (did : Int) : String :=
  "Document with ID " ++ toString did ++
    " not found. Please check the document ID or leave it empty to search all documents."

/-- Fixed answer when no chunk matches the query. -/
def noMatchAnswer : String :=
  "I couldn\x27t find any relevant information in the uploaded documents to answer your question. Please try rephrasing your question or make sure you have uploaded relevant documents."

/-- `text ILIKE '%w1%' OR text ILIKE '%w2%' OR ...` for one chunk row. -/
def chunkMatches (qws : List (List Char)) (c : StoredChunk) : Bool :=
  qws.any (fun w => likeMatch ('%' :: (w ++ ['%'])) (c.text.data.map Char.toLower))

/-- The citation built from a matched row. -/
def mkCitation (r : StoredChunk) : Citation := ⟨r.document_id, r.page_no, 1⟩

/-- `"\n\n".join(f"[Document {r[1]}, Page {r[2]}]: {r[3]}" for r in rows)`. -/
def mkContext (rows : List StoredChunk) : String :=
  String.intercalate "\n\n" (rows.map (fun r =>
    "[Document " ++ toString r.document_id ++ ", Page " ++ toString r.page_no ++
      "]: " ++ r.text))

/-- The tail of `qa` after the rows are fetched: matched rows produce the
generated answer plus one constant-score citation per row; no rows produce
the fixed no-match answer (main.py lines 557-571). -/
def finishQa (gen : String → String → String) (q : String)
    (rows : List StoredChunk) : QaResult :=
  if rows = [] then QaResult.ok noMatchAnswer []
  else QaResult.ok (gen q (mkContext rows)) (rows.map mkCitation)

/-- Executing `SELECT ... LIMIT top_k` and finishing: a negative limit is a
PostgreSQL error, surfaced by the generic handler as a 500; otherwise the
first `top_k` matching rows (storage order) are returned. -/
def runSearch (gen : String → String → String) (q : String) (top_k : Int)
    (rows : List StoredChunk) : QaResult :=
  if top_k < 0 then
    QaResult.httpError 500 "Q&A processing failed: LIMIT must not be negative"
  else finishQa gen q (rows.take top_k.toNat)

/-- The `/qa` endpoint (main.py lines 493-583).  `gen` abstracts
`generate_ai_response`.  Branch order as in the source: empty-query 422,
no usable words, empty chunks table, then the document scope.  Python's
`if inp.documentId:` is truthiness, so a documentId of 0 takes the
unscoped branch — modelled by the `did ≠ 0` test. -/
def qa (gen : String → String → String) (st : QaStore) (inp : QaIn) : QaResult :=
  if stripChars inp.query.data = [] then
    QaResult.httpError 422 "Query cannot be empty"
  else if queryWordsL inp.query.data = [] then
    QaResult.ok moreSpecificAnswer []
  else if st.chunks.length = 0 then
    QaResult.ok noDocsAnswer []
  else
    match inp.documentId with
    | some did =>
      if did ≠ 0 then
        if st.documents.contains did then
          runSearch gen inp.query inp.top_k
            (st.chunks.filter (fun c =>
              c.document_id == did && chunkMatches (queryWordsL inp.query.data) c))
        else QaResult.ok (docNotFoundAnswer did) []
      else
        runSearch gen inp.query inp.top_k
          (st.chunks.filter (chunkMatches (queryWordsL inp.query.data)))
    | none =>
      runSearch gen inp.query inp.top_k
        (st.chunks.filter (chunkMatches (queryWordsL inp.query.data)))

/-- A concrete stand-in for the external answer generator. -/
def gen0 : String → String → String := fun _ _ => "synthesized answer"

/-- Store for the C5 counterexample: one chunk whose text contains `a…b`
but not the literal substring `a%b`. -/
def st5 : QaStore := ⟨[1], [⟨1, 1, 1, "aXb"⟩]⟩

/-- Store for the C5 witness. -/
def st5w : QaStore := ⟨[1], [⟨1, 1, 2, "The refund policy is strict"⟩]⟩

/-- Store for the C6 counterexample: document 1 exists, document 0 does
not. -/
def st6 : QaStore := ⟨[1], [⟨1, 1, 1, "hello world"⟩]⟩

/-! ### Basic lemmas about the string helpers -/

theorem mem_dropWhile_of_not {p : Char → Bool} {c : Char} :
    ∀ {l : List Char}, c ∈ l → p c = false → c ∈ l.dropWhile p := by
  intro l
  induction l with
  | nil => intro h; exact absurd h (List.not_mem_nil c)
  | cons x xs ih =>
    intro hmem hpc
    rw [List.dropWhile_cons]
    rcases List.mem_cons.mp hmem with rfl | hxs
    · rw [hpc]; simp
    · split
      · exact ih hxs hpc
      · exact List.mem_cons_of_mem _ hxs

theorem stripChars_ne_nil {l : List Char} {c : Char} (hc : c ∈ l)
    (hcs : isPySpace c = false) : stripChars l ≠ [] := by
  intro h
  unfold stripChars at h
  have h1 : c ∈ (((l.dropWhile isPySpace).reverse).dropWhile isPySpace).reverse := by
    apply List.mem_reverse.mpr
    apply mem_dropWhile_of_not _ hcs
    apply List.mem_reverse.mpr
    exact mem_dropWhile_of_not hc hcs
  rw [h] at h1
  exact absurd h1 (List.not_mem_nil c)

theorem exists_not_space_of_stripChars_ne_nil {l : List Char}
    (h : stripChars l ≠ []) : ∃ c ∈ l, isPySpace c = false := by
  by_contra hall
  push_neg at hall
  apply h
  have hdrop : l.dropWhile isPySpace = [] := by
    rw [List.dropWhile_eq_nil_iff]
    intro c hc
    simpa using hall c hc
  unfold stripChars
  rw [hdrop]
  simp

theorem splitDotSpace_ne_nil : ∀ l : List Char, splitDotSpace l ≠ [] := by
  intro l
  induction l using splitDotSpace.induct with
  | case1 => simp [splitDotSpace]
  | case2 c => simp [splitDotSpace]
  | case3 c d rest h ih => simp [splitDotSpace, h]
  | case4 c d rest h hnil ih => exact absurd hnil ih
  | case5 c d rest h p ps heq ih => simp [splitDotSpace, h, heq]

theorem mem_of_mem_splitDotSpace :
    ∀ {l s : List Char}, s ∈ splitDotSpace l → ∀ {c : Char}, c ∈ s → c ∈ l := by
  intro l
  induction l using splitDotSpace.induct with
  | case1 =>
    intro s hs c hc
    simp [splitDotSpace] at hs
    subst hs
    exact absurd hc (List.not_mem_nil c)
  | case2 x =>
    intro s hs c hc
    simp [splitDotSpace] at hs
    subst hs
    exact hc
  | case3 x d rest h ih =>
    intro s hs c hc
    rw [splitDotSpace, if_pos h] at hs
    rcases List.mem_cons.mp hs with rfl | hs'
    · exact absurd hc (List.not_mem_nil c)
    · exact List.mem_cons_of_mem _ (List.mem_cons_of_mem _ (ih hs' hc))
  | case4 x d rest h hnil ih => exact absurd hnil (splitDotSpace_ne_nil _)
  | case5 x d rest h p ps heq ih =>
    intro s hs c hc
    rw [splitDotSpace, if_neg h, heq] at hs
    rcases List.mem_cons.mp hs with rfl | hs'
    · rcases List.mem_cons.mp hc with rfl | hc'
      · exact List.mem_cons_self _ _
      · exact List.mem_cons_of_mem _ (ih (heq ▸ List.mem_cons_self p ps) hc')
    · exact List.mem_cons_of_mem _ (ih (heq ▸ List.mem_cons_of_mem p hs') hc)

theorem splitDotSpace_of_not_dot :
    ∀ {l : List Char}, '.' ∉ l → splitDotSpace l = [l] := by
  intro l
  induction l using splitDotSpace.induct with
  | case1 => intro _; rfl
  | case2 c => intro _; rfl
  | case3 c d rest h ih =>
    intro hnd
    exact absurd (h.1 ▸ List.mem_cons_self c _) hnd
  | case4 c d rest h hnil ih => exact absurd hnil (splitDotSpace_ne_nil _)
  | case5 c d rest h p ps heq ih =>
    intro hnd
    have hnd' : '.' ∉ d :: rest := fun hmem => hnd (List.mem_cons_of_mem c hmem)
    have := ih hnd'
    rw [heq] at this
    obtain ⟨h1, h2⟩ : p = d :: rest ∧ ps = [] := by
      have h1 := congrArg List.head? this
      have h2 := congrArg List.tail this
      simp at h1 h2
      exact ⟨h1, h2⟩
    subst h1; subst h2
    rw [splitDotSpace, if_neg h, heq]

/-! ### The instrumented loop projects onto the plain loop -/

theorem chunkStepI_proj (cs ov : Nat) (st : ChunkSt) (s : List Char) :
    chunkStep cs ov (st.events.map (fun e => stripChars e.closed), st.cur) s
      = ((chunkStepI cs ov st s).events.map (fun e => stripChars e.closed),
         (chunkStepI cs ov st s).cur) := by
  unfold chunkStep chunkStepI
  dsimp only
  split
  · simp
  · simp

theorem chunkFold_proj (cs ov : Nat) :
    ∀ (ss : List (List Char)) (st : ChunkSt),
      ss.foldl (chunkStep cs ov) (st.events.map (fun e => stripChars e.closed), st.cur)
        = ((ss.foldl (chunkStepI cs ov) st).events.map (fun e => stripChars e.closed),
           (ss.foldl (chunkStepI cs ov) st).cur) := by
  intro ss
  induction ss with
  | nil => intro st; rfl
  | cons s ss ih =>
    intro st
    rw [List.foldl_cons, List.foldl_cons, chunkStepI_proj, ih]

theorem chunkRun_proj (l : List Char) (cs ov : Nat) :
    (splitDotSpace l).foldl (chunkStep cs ov) ([], [])
      = ((chunkRunL l cs ov).events.map (fun e => stripChars e.closed),
         (chunkRunL l cs ov).cur) := by
  have h := chunkFold_proj cs ov (splitDotSpace l) ⟨[], [], 0, 0⟩
  simpa [chunkRunL] using h

/-- On an all-whitespace input the loop performs a single vacuous step. -/
theorem chunkRun_of_strip_nil {l : List Char} (h : stripChars l = []) :
    chunkRunL l cs ov = ⟨[], l, 0, 1⟩ := by
  have hall : ∀ c ∈ l, isPySpace c = true := by
    intro c hc
    by_contra hcs
    exact stripChars_ne_nil hc (by simpa using hcs) h
  have hnd : '.' ∉ l := by
    intro hmem
    have := hall '.' hmem
    simp [isPySpace] at this
  rw [chunkRunL, splitDotSpace_of_not_dot hnd, List.foldl_cons, List.foldl_nil]
  unfold chunkStepI
  simp

theorem chunkTextL_eq_annotated (l : List Char) (cs ov : Nat) :
    chunkTextL l cs ov = (chunkAnnotatedL l cs ov).map Prod.snd := by
  unfold chunkTextL chunkAnnotatedL
  by_cases hg : stripChars l = []
  · rw [if_pos hg, chunkRun_of_strip_nil hg]
    simp [hg]
  · rw [if_neg hg, chunkRun_proj]
    dsimp only
    by_cases hc : stripChars (chunkRunL l cs ov).cur = []
    · rw [if_pos hc, if_pos hc]
      simp
    · rw [if_neg hc, if_neg hc]
      simp

theorem chunk_text_eq_annotated (t : String) (cs ov : Nat) :
    chunk_text t cs ov
      = (chunkAnnotatedL t.data cs ov).map (fun p => (⟨p.2⟩ : String)) := by
  rw [chunk_text, chunkTextL_eq_annotated, List.map_map]
  rfl

/-! ### The loop invariant -/

theorem chunkInv_init (ov : Nat) : ChunkInv ov ⟨[], [], 0, 0⟩ := by
  refine ⟨?_, le_refl 0, ?_, ?_, ?_, ?_, ?_, ?_⟩ <;> simp [beginsWith]

theorem chunkInv_step (cs ov : Nat) (st : ChunkSt) (s : List Char)
    (h : ChunkInv ov st) : ChunkInv ov (chunkStepI cs ov st s) := by
  obtain ⟨h1, h2, h3, h4, h5, h6, h7, h8⟩ := h
  unfold chunkStepI
  split
  case isTrue hc =>
    have hlt : st.curStart < st.idx := h3 hc.2
    refine ⟨?_, Nat.le_succ _, fun _ => Nat.lt_succ_self _, fun _ => ⟨by simp, by simp⟩,
      ?_, ?_, ?_, ?_⟩
    · dsimp only
      rw [List.map_append]
      simp only [List.map_cons, List.map_nil]
      refine List.chain'_append.mpr ⟨h1, List.chain'_singleton _, ?_⟩
      intro x hx y hy
      rw [List.getLast?_concat] at hx
      simp only [List.head?_cons, Option.mem_def, Option.some.injEq] at hx hy
      rw [← hx, ← hy]
      exact hlt
    · dsimp only
      cases hev : st.events with
      | nil => simp
      | cons a tl =>
        intro e he
        rw [List.cons_append, List.drop_succ_cons, List.drop_zero] at he
        rcases List.mem_append.mp he with htl | hnew
        · exact h5 e (by rw [hev, List.drop_succ_cons, List.drop_zero]; exact htl)
        · have hdot : '.' ∈ st.cur := (h4 (by rw [hev]; simp)).2
          simp only [List.mem_singleton] at hnew
          subst hnew
          exact stripChars_ne_nil hdot (by rfl)
    · dsimp only
      refine List.chain'_append.mpr ⟨h6, List.chain'_singleton _, ?_⟩
      intro x hx y hy
      simp only [List.head?_cons, Option.mem_def, Option.some.injEq] at hy
      rw [← hy]
      exact h7 x hx
    · dsimp only
      intro e he
      rw [List.getLast?_concat] at he
      injection he with he
      subst he
      exact ⟨[], (List.append_nil _).symm⟩
    · dsimp only
      intro e he
      rcases List.mem_append.mp he with hold | hnew
      · exact h8 e hold
      · simp only [List.mem_singleton] at hnew
        subst hnew
        rfl
  case isFalse hc =>
    refine ⟨h1, h2.trans (Nat.le_succ _), fun _ => Nat.lt_succ_of_le h2, ?_, h5, h6, ?_, h8⟩
    · intro hev
      obtain ⟨hcne, hdot⟩ := h4 hev
      dsimp only
      rw [if_neg hcne]
      exact ⟨by simp, List.mem_append_left _ hdot⟩
    · intro e he
      have hev : st.events ≠ [] := by
        intro h0
        rw [h0] at he
        simp at he
      obtain ⟨hcne, _⟩ := h4 hev
      dsimp only at he ⊢
      rw [if_neg hcne]
      obtain ⟨r, hr⟩ := h7 e he
      exact ⟨r ++ ('.' :: ' ' :: s), by rw [hr, List.append_assoc]⟩

theorem chunkInv_fold (cs ov : Nat) :
    ∀ (ss : List (List Char)) (st : ChunkSt), ChunkInv ov st →
      ChunkInv ov (ss.foldl (chunkStepI cs ov) st) := by
  intro ss
  induction ss with
  | nil => intro st h; exact h
  | cons s ss ih =>
    intro st h
    rw [List.foldl_cons]
    exact ih _ (chunkInv_step cs ov st s h)

theorem chunkInv_run (l : List Char) (cs ov : Nat) :
    ChunkInv ov (chunkRunL l cs ov) :=
  chunkInv_fold cs ov (splitDotSpace l) _ (chunkInv_init ov)

/-! ### Reachability of a non-empty result -/

theorem chunkNe_step (cs ov : Nat) (st : List (List Char) × List Char)
    (s : List Char) (h : ChunkNe st) : ChunkNe (chunkStep cs ov st s) := by
  unfold chunkStep
  split
  · exact Or.inl (by simp)
  · rcases h with h1 | ⟨c, hc, hcs⟩
    · exact Or.inl h1
    · refine Or.inr ⟨c, ?_, hcs⟩
      dsimp only
      split
      case isTrue he => rw [he] at hc; exact absurd hc (List.not_mem_nil c)
      case isFalse => exact List.mem_append_left _ hc

theorem chunkNe_entry (cs ov : Nat) (st : List (List Char) × List Char)
    (s : List Char) (h : ∃ c ∈ s, isPySpace c = false) :
    ChunkNe (chunkStep cs ov st s) := by
  obtain ⟨c, hc, hcs⟩ := h
  unfold chunkStep
  split
  · exact Or.inl (by simp)
  · refine Or.inr ⟨c, ?_, hcs⟩
    dsimp only
    split
    · exact hc
    · exact List.mem_append_right _ (List.mem_cons_of_mem _ (List.mem_cons_of_mem _ hc))

theorem chunkNe_fold (cs ov : Nat) :
    ∀ (ss : List (List Char)) (st : List (List Char) × List Char),
      (ChunkNe st ∨ ∃ s ∈ ss, ∃ c ∈ s, isPySpace c = false) →
      ChunkNe (ss.foldl (chunkStep cs ov) st) := by
  intro ss
  induction ss with
  | nil =>
    intro st h
    rcases h with h | ⟨s, hs, _⟩
    · exact h
    · exact absurd hs (List.not_mem_nil s)
  | cons s ss ih =>
    intro st h
    rw [List.foldl_cons]
    rcases h with h | ⟨s0, hs0, hc0⟩
    · exact ih _ (Or.inl (chunkNe_step cs ov st s h))
    · rcases List.mem_cons.mp hs0 with rfl | hs0'
      · exact ih _ (Or.inl (chunkNe_entry cs ov st s0 hc0))
      · exact ih _ (Or.inr ⟨s0, hs0', hc0⟩)

theorem string_mk_ne_empty {l : List Char} (h : l ≠ []) : (⟨l⟩ : String) ≠ "" := by
  intro he
  exact h (congrArg String.data he)

/-! ### Claim theorems for the Chunker -/

/-- Claim C1 (amended): `chunk_text` returns at least one chunk for every
input text having at least one sentence (splitting on `". "`) that contains
a non-whitespace character, and it returns the empty sequence for empty or
whitespace-only input.  (The original claim — at least one chunk whenever
the *stripped text* is non-empty — fails on degenerate inputs such as
`". "`, all of whose sentences are whitespace-only; see the
counterexample.) -/
theorem chunkText_c1_amended (t : String) (cs ov : Nat) :
    ((∃ s ∈ splitDotSpace t.data, stripChars s ≠ []) → chunk_text t cs ov ≠ []) ∧
    (pyStrip t = "" → chunk_text t cs ov = []) := by
  constructor
  · rintro ⟨s, hs, hsne⟩
    obtain ⟨c, hc, hcs⟩ := exists_not_space_of_stripChars_ne_nil hsne
    have hg : stripChars t.data ≠ [] :=
      stripChars_ne_nil (mem_of_mem_splitDotSpace hs hc) hcs
    unfold chunk_text chunkTextL
    rw [if_neg hg]
    have hP := chunkNe_fold cs ov (splitDotSpace t.data) ([], [])
      (Or.inr ⟨s, hs, c, hc, hcs⟩)
    rcases hP with h1 | h2
    · split
      · simpa using h1
      · simp
    · obtain ⟨c2, hc2, hcs2⟩ := h2
      rw [if_neg (stripChars_ne_nil hc2 hcs2)]
      simp
  · intro h
    have hg : stripChars t.data = [] := congrArg String.data h
    unfold chunk_text chunkTextL
    rw [if_pos hg]
    rfl

/-- Claim C1, counterexample to the original statement: the input `". "`
is non-empty after stripping whitespace (it strips to `"."`), yet
`chunk_text` (at its default parameters 500/50) returns the empty
sequence, because both sentences produced by splitting on `". "` are
empty. -/
theorem chunkText_c1_counterexample :
    pyStrip ". " ≠ "" ∧ chunk_text ". " 500 50 = [] := by constructor <;> decide

/-- Claim C1, witness: a concrete input with a real sentence yields a
non-empty chunk sequence. -/
theorem chunkText_c1_witness :
    (∃ s ∈ splitDotSpace "First point. Second point".data, stripChars s ≠ []) ∧
    chunk_text "First point. Second point" 500 50 ≠ [] :=
  ⟨by decide, (chunkText_c1_amended "First point. Second point" 500 50).1 (by decide)⟩

/-- Claim C2 (amended): every chunk emitted by `chunk_text` except possibly
the first is a non-empty string (the first chunk can be empty: it is
emitted as `current_chunk.strip()` and the pre-strip emptiness test
`and current_chunk` passes for a whitespace-only running chunk — see the
counterexample); the chunks are emitted in source order: the chunk sequence
is exactly the left-to-right sequence of close events of the sentence loop,
and the sentence indices at which consecutive chunks start strictly
increase. -/
theorem chunkText_c2_amended (t : String) (cs ov : Nat) :
    chunk_text t cs ov
        = (chunkAnnotatedL t.data cs ov).map (fun p => (⟨p.2⟩ : String)) ∧
    List.Chain' (· < ·) ((chunkAnnotatedL t.data cs ov).map Prod.fst) ∧
    (∀ c ∈ (chunk_text t cs ov).drop 1, c ≠ "") := by
  refine ⟨chunk_text_eq_annotated t cs ov, ?_, ?_⟩
  · have h1 := (chunkInv_run t.data cs ov).1
    unfold chunkAnnotatedL
    rw [List.map_append, List.map_map]
    split
    · simp only [List.map_nil, List.append_nil]
      have := (List.chain'_append.mp h1).1
      simpa [Function.comp] using this
    · simpa [Function.comp] using h1
  · intro c hc
    rw [chunk_text_eq_annotated, ← List.map_drop] at hc
    obtain ⟨p, hp, rfl⟩ := List.mem_map.mp hc
    apply string_mk_ne_empty
    unfold chunkAnnotatedL at hp
    cases hev : (chunkRunL t.data cs ov).events with
    | nil =>
      rw [hev] at hp
      simp only [List.map_nil, List.nil_append] at hp
      split at hp
      · simp at hp
      · simp at hp
    | cons a tl =>
      rw [hev] at hp
      rw [List.map_cons, List.cons_append, List.drop_succ_cons, List.drop_zero] at hp
      rcases List.mem_append.mp hp with hL | hR
      · obtain ⟨e, he, hpe⟩ := List.mem_map.mp hL
        have h5 := (chunkInv_run t.data cs ov).2.2.2.2.1 e
          (by rw [hev, List.drop_succ_cons, List.drop_zero]; exact he)
        rw [← hpe]
        exact h5
      · split at hR
        · simp at hR
        case isFalse hcur =>
          simp only [List.mem_singleton] at hR
          rw [hR]
          exact hcur

/-- Claim C2, counterexample to the original statement: with input
`"  . abc"`, chunk size 3 and overlap 1 the first emitted chunk is the
empty string (the running chunk `"  "` is non-empty, so the close fires,
but it strips to `""`). -/
theorem chunkText_c2_counterexample :
    chunk_text "  . abc" 3 1 = ["", ". abc"] ∧ "" ∈ chunk_text "  . abc" 3 1 := by
  constructor <;> decide

/-- Claim C2, witness: a concrete non-first chunk is non-empty. -/
theorem chunkText_c2_witness :
    "bb. cc" ∈ (chunk_text "aa. bb. cc" 4 2).drop 1 ∧ ("bb. cc" : String) ≠ "" :=
  ⟨by decide, (chunkText_c2_amended "aa. bb. cc" 4 2).2.2 "bb. cc" (by decide)⟩

/-- Claim C3 (amended): whenever the loop closes a running chunk because the
next sentence would overflow `chunk_size`, the new running chunk is seeded
with `overlap_text + ". " + sentence` where `overlap_text` is the trailing
`overlap` characters of the just-closed running chunk when
`overlap < len(closed)` **and `overlap > 0`**, and the whole closed chunk
when `len(closed) ≤ overlap`; each seed is a prefix of the next closed
running chunk (and of the final running chunk).  The original claim fails
for `overlap = 0`: Python's `current_chunk[-0:]` is the whole string, so
the seed is then the entire closed chunk rather than its trailing zero
characters — see the counterexample. -/
theorem chunkText_c3_amended (t : String) (cs ov : Nat) :
    (∀ e ∈ (chunkRunL t.data cs ov).events,
        e.seed = overlapSeed ov e.closed ++ ('.' :: ' ' :: e.trigger) ∧
        (e.closed.length ≤ ov → e.seed = e.closed ++ ('.' :: ' ' :: e.trigger)) ∧
        (0 < ov → ov < e.closed.length →
          e.seed = e.closed.drop (e.closed.length - ov) ++ ('.' :: ' ' :: e.trigger))) ∧
    List.Chain' (fun e e2 => beginsWith e.seed e2.closed)
      (chunkRunL t.data cs ov).events ∧
    (∀ e, (chunkRunL t.data cs ov).events.getLast? = some e →
      beginsWith e.seed (chunkRunL t.data cs ov).cur) := by
  obtain ⟨_, _, _, _, _, h6, h7, h8⟩ := chunkInv_run t.data cs ov
  refine ⟨?_, h6, h7⟩
  intro e he
  have hs := h8 e he
  refine ⟨hs, ?_, ?_⟩
  · intro hle
    rw [hs]
    unfold overlapSeed
    rw [if_neg (not_lt.mpr hle)]
  · intro hpos hlt
    rw [hs]
    unfold overlapSeed pySliceLast
    rw [if_pos hlt, if_neg (Nat.pos_iff_ne_zero.mp hpos)]

/-- Claim C3, counterexample to the original statement at `overlap = 0`:
for input `"ab. cd"` with chunk size 3, the chunk following the close is
`"ab. cd"` — it begins with the whole closed chunk `"ab"`, not with the
trailing *zero* characters of it followed by the triggering sentence
(neither `". cd"` nor `"cd"` is a prefix of it). -/
theorem chunkText_c3_counterexample :
    chunk_text "ab. cd" 3 0 = ["ab", "ab. cd"] ∧
    ". cd".data.isPrefixOf "ab. cd".data = false ∧
    "cd".data.isPrefixOf "ab. cd".data = false := by
  refine ⟨by decide, by decide, by decide⟩

/-- Claim C3, witness: at overlap 1 the close event of `"ab. cd"` (chunk
size 3) is seeded with the trailing 1 character of `"ab"` plus `". cd"`. -/
theorem chunkText_c3_witness :
    (⟨0, "ab".data, "cd".data, "b. cd".data⟩ : CloseEvent)
        ∈ (chunkRunL "ab. cd".data 3 1).events ∧
    "b. cd".data = "ab".data.drop ("ab".data.length - 1) ++ ('.' :: ' ' :: "cd".data) := by
  refine ⟨by decide, ?_⟩
  have h := ((chunkText_c3_amended "ab. cd" 3 1).1
    ⟨0, "ab".data, "cd".data, "b. cd".data⟩ (by decide)).2.2 (by decide) (by decide)
  simp only at h
  exact h

/-- Claim C9: `chunk_text` never splits inside a sentence-like unit — for
any input that is a single sentence (no `". "` delimiter anywhere, i.e.
splitting yields the input itself) and not whitespace-only, the result is
exactly one chunk equal to the stripped input, for every `chunk_size` and
`overlap`; in particular a chunk may exceed `chunk_size` (see the
witness, where the single chunk is longer than the chunk size). -/
theorem chunkText_c9 (t : String) (cs ov : Nat) (h1 : pyStrip t ≠ "")
    (h2 : splitDotSpace t.data = [t.data]) :
    chunk_text t cs ov = [pyStrip t] := by
  have hg : stripChars t.data ≠ [] := by
    intro he
    apply h1
    unfold pyStrip
    rw [he]
  unfold chunk_text chunkTextL
  rw [if_neg hg, h2, List.foldl_cons, List.foldl_nil]
  have hstep : chunkStep cs ov ([], []) t.data = ([], t.data) := by
    unfold chunkStep
    simp
  rw [hstep]
  dsimp only
  rw [if_neg hg]
  rfl

/-- Claim C9, witness: `"hello world"` has no `". "` delimiter; with chunk
size 3 it still yields the single chunk `"hello world"`, of length 11 > 3. -/
theorem chunkText_c9_witness :
    pyStrip "hello world" ≠ "" ∧
    chunk_text "hello world" 3 1 = ["hello world"] ∧
    3 < "hello world".data.length := by
  refine ⟨by decide, ?_, by decide⟩
  have h := chunkText_c9 "hello world" 3 1 (by decide) (by decide)
  simpa using h

/-! ### Claim theorem for the Text Extractor -/

/-- Claim C4: in `extract_text_from_pdf`, (a) the OCR fallback path is
entered for a page only if the stripped extracted text is shorter than 20
characters and the page has embedded images or vector drawings; (b) when
OCR succeeds its output is appended (with a newline, then stripped) to the
extracted text rather than replacing it; (c) a per-page OCR failure leaves
the page with the already-extracted text; and (d) every page is processed
independently, in order, with 1-based numbering — so processing continues
to the next page regardless of per-page OCR outcomes. -/
theorem extract_c4 :
    (∀ (ocrLibs : Bool) (p : PdfPage),
      ((processPage ocrLibs p).2 = true →
        (stripChars p.rawText.data).length < 20 ∧
        (p.hasImages = true ∨ p.hasDrawings = true)) ∧
      (∀ o, (processPage ocrLibs p).2 = true → p.ocrOutcome = some o →
        (processPage ocrLibs p).1 = pyStrip (p.rawText ++ "\n" ++ o)) ∧
      (p.ocrOutcome = none → (processPage ocrLibs p).1 = p.rawText)) ∧
    (∀ (ocrLibs : Bool) (pages : List PdfPage),
      (extract_text_from_pdf ocrLibs pages).map Prod.fst
          = (List.range pages.length).map (fun i => i + 1) ∧
      (extract_text_from_pdf ocrLibs pages).map Prod.snd
          = pages.map (fun p => (processPage ocrLibs p).1)) := by
  constructor
  · intro ocrLibs p
    refine ⟨?_, ?_, ?_⟩
    · intro h
      unfold processPage at h
      split at h
      case isTrue hcond =>
        split at h
        case isTrue himg => exact ⟨hcond.1, himg⟩
        case isFalse => simp at h
      case isFalse => simp at h
    · intro o h ho
      unfold processPage at h ⊢
      split at h
      case isTrue hcond =>
        split at h
        case isTrue himg =>
          rw [if_pos hcond, if_pos himg, ho]
        case isFalse => simp at h
      case isFalse => simp at h
    · intro ho
      unfold processPage
      rw [ho]
      split
      · split
        · rfl
        · rfl
      · rfl
  · intro ocrLibs pages
    constructor
    · unfold extract_text_from_pdf
      rw [List.map_map]
      have hc : (Prod.fst ∘ fun pr : Nat × PdfPage => (pr.1 + 1, (processPage ocrLibs pr.2).1))
          = (fun i => i + 1) ∘ Prod.fst := rfl
      rw [hc, ← List.map_map, List.enum_map_fst]
    · unfold extract_text_from_pdf
      rw [List.map_map]
      have hc : (Prod.snd ∘ fun pr : Nat × PdfPage => (pr.1 + 1, (processPage ocrLibs pr.2).1))
          = (fun p => (processPage ocrLibs p).1) ∘ Prod.snd := rfl
      rw [hc, ← List.map_map, List.enum_map_snd]

/-- Claim C4, witness: a sparse page (`"hi"`, 2 < 20 chars) with an image
enters the OCR path, and successful OCR output is appended after the
extracted text. -/
theorem extract_c4_witness :
    (processPage true ⟨"hi", true, false, some "OCR RESULT"⟩).2 = true ∧
    (processPage true ⟨"hi", true, false, some "OCR RESULT"⟩).1
      = pyStrip ("hi" ++ "\n" ++ "OCR RESULT") ∧
    pyStrip ("hi" ++ "\n" ++ "OCR RESULT") = "hi\nOCR RESULT" := by
  refine ⟨by decide, ?_, by decide⟩
  exact (extract_c4.1 true ⟨"hi", true, false, some "OCR RESULT"⟩).2.1
    "OCR RESULT" (by decide) (by decide)

/-! ### Claim theorems for the chunk-and-store step -/

theorem batches100Fuel_flatten {α : Type} :
    ∀ (fuel : Nat) (l : List α), l.length ≤ fuel →
      (batches100Fuel fuel l).flatten = l := by
  intro fuel
  induction fuel with
  | zero =>
    intro l h
    have : l = [] := List.length_eq_zero.mp (Nat.le_zero.mp h)
    subst this
    rfl
  | succ n ih =>
    intro l h
    cases l with
    | nil => rfl
    | cons x xs =>
      show ((x :: xs).take 100 :: batches100Fuel n ((x :: xs).drop 100)).flatten = x :: xs
      rw [List.flatten_cons, ih ((x :: xs).drop 100) ?hle, List.take_append_drop]
      case hle =>
        rw [List.length_drop]
        simp only [List.length_cons] at h ⊢
        omega

theorem batches100_flatten {α : Type} (l : List α) : (batches100 l).flatten = l :=
  batches100Fuel_flatten l.length l (le_refl _)

/-- Claim C7 (amended): the records persisted by the chunk-and-store step
are exactly `(document_id, page_no, text)` for each computed chunk, in
order — the ordinal index that `embed_document` computes for each chunk
within its page is *dropped* at insertion time (`records = [(r[0], r[1],
r[3]) for r in batch]`, and the `chunks` table has no index column), so a
persisted Chunk record does not carry its ordinal index. -/
theorem embed_c7_amended (document_id : Int) (rows : List (Int × String)) :
    embed_inserted_records document_id rows
      = (embed_all_chunks document_id rows).map (fun r => (r.1, r.2.1, r.2.2.2)) := by
  unfold embed_inserted_records
  rw [← List.map_flatten, batches100_flatten]

/-- Claim C7, counterexample to the original statement: this page's text
chunks into the same 301-character chunk twice (ordinal indices 0 and 1);
both are persisted as the *identical* record `(1, 1, dupChunk)`, so the
persisted records do not carry (and cannot even determine) the ordinal
index of a chunk within its page. -/
theorem embed_c7_counterexample :
    (1, 1, 0, dupChunk) ∈ embed_all_chunks 1 [(1, dupText)] ∧
    (1, 1, 1, dupChunk) ∈ embed_all_chunks 1 [(1, dupText)] ∧
    embed_inserted_records 1 [(1, dupText)] = [(1, 1, dupChunk), (1, 1, dupChunk)] ∧
    (0 : Nat) ≠ 1 :=
  ⟨by decide, by decide, by decide, by decide⟩

/-! ### Claim theorem for the Source Fetcher -/

theorem splitFirst_eq_none {sep : Char} :
    ∀ {l : List Char}, sep ∉ l → splitFirst sep l = none := by
  intro l
  induction l with
  | nil => intro _; rfl
  | cons c rest ih =>
    intro h
    have hc : ¬ c = sep := fun he => h (he ▸ List.mem_cons_self c rest)
    unfold splitFirst
    rw [if_neg hc, ih (fun hm => h (List.mem_cons_of_mem c hm))]

theorem splitFirst_ne_none_of_mem {sep : Char} :
    ∀ {l : List Char}, sep ∈ l → splitFirst sep l ≠ none := by
  intro l
  induction l with
  | nil => intro h; exact absurd h (List.not_mem_nil sep)
  | cons c rest ih =>
    intro h
    unfold splitFirst
    by_cases hc : c = sep
    · rw [if_pos hc]; simp
    · rw [if_neg hc]
      have hrest : sep ∈ rest := by
        rcases List.mem_cons.mp h with he | hm
        · exact absurd he.symm hc
        · exact hm
      cases hs : splitFirst sep rest with
      | none => exact absurd hs (ih hrest)
      | some pr => cases pr; simp

theorem splitFirst_append {sep : Char} :
    ∀ {b : List Char} (k : List Char), sep ∉ b →
      splitFirst sep (b ++ sep :: k) = some (b, k) := by
  intro b
  induction b with
  | nil =>
    intro k _
    show splitFirst sep (sep :: k) = some ([], k)
    unfold splitFirst
    rw [if_pos rfl]
  | cons c bs ih =>
    intro k h
    have hc : ¬ c = sep := fun he => h (he ▸ List.mem_cons_self c bs)
    show splitFirst sep (c :: (bs ++ sep :: k)) = _
    unfold splitFirst
    rw [if_neg hc, ih k (fun hm => h (List.mem_cons_of_mem c hm))]

theorem splitOnChar_not_mem {sep : Char} :
    ∀ {l : List Char}, sep ∉ l → splitOnChar sep l = [l] := by
  intro l
  induction l with
  | nil => intro _; rfl
  | cons c rest ih =>
    intro h
    have hc : ¬ c = sep := fun he => h (he ▸ List.mem_cons_self c rest)
    unfold splitOnChar
    rw [if_neg hc, ih (fun hm => h (List.mem_cons_of_mem c hm))]

theorem rfindDot_eq_none : ∀ {l : List Char}, '.' ∉ l → rfindDot l = none := by
  intro l
  induction l with
  | nil => intro _; rfl
  | cons c rest ih =>
    intro h
    have hc : ¬ c = '.' := fun he => h (he ▸ List.mem_cons_self c rest)
    unfold rfindDot
    rw [ih (fun hm => h (List.mem_cons_of_mem c hm)), if_neg hc]

theorem rfindDot_append :
    ∀ (l ext : List Char), '.' ∉ ext → rfindDot (l ++ '.' :: ext) = some l.length := by
  intro l
  induction l with
  | nil =>
    intro ext h
    show rfindDot ('.' :: ext) = some 0
    unfold rfindDot
    rw [rfindDot_eq_none h, if_pos rfl]
  | cons c ls ih =>
    intro ext h
    show rfindDot (c :: (ls ++ '.' :: ext)) = _
    unfold rfindDot
    rw [ih ext h]
    simp

/-- Claim C8: for an object-storage locator `minio://<path>`, the fetch
fails with the locator error (`ValueError("minio url must be
minio://bucket/key")`, the spec's `InvalidLocatorError`) **iff** the path
after the scheme cannot be split at a `/` into a bucket and a key;
otherwise the object is downloaded into a temp file created with the key's
pathlib suffix (`tempfile.mktemp(suffix=pathlib.Path(key).suffix)`), so a
key whose final component has an extension yields a temp file preserving
exactly that extension.  (The freshness of the temporary file itself is an
operating-system effect of `tempfile.mktemp` outside this embedding; S3
transfer failures raise a distinct error type, never the locator error.) -/
theorem fetch_c8 :
    (∀ path : List Char,
      (minioFetch ⟨"minio://".data ++ path⟩
          = FetchOutcome.invalidLocator "minio url must be minio://bucket/key"
        ↔ ¬ ∃ b k : List Char, path = b ++ '/' :: k)) ∧
    (∀ b k : List Char, '/' ∉ b →
      minioFetch ⟨"minio://".data ++ (b ++ '/' :: k)⟩
        = FetchOutcome.downloadedTemp ⟨b⟩ ⟨k⟩ (pathlibSuffix ⟨k⟩)) ∧
    (∀ name ext : List Char, name ≠ [] → ext ≠ [] → name ≠ ['.'] →
      '.' ∉ ext → '/' ∉ name → '/' ∉ ext →
      pathlibSuffix ⟨name ++ '.' :: ext⟩ = ⟨'.' :: ext⟩) := by
  have hdrop : ∀ path : List Char,
      (String.mk ("minio://".data ++ path)).data.drop 8 = path := by
    intro path
    show ("minio://".data ++ path).drop 8 = path
    have h8 : ("minio://".data).length = 8 := by decide
    rw [← h8, List.drop_left]
  refine ⟨?_, ?_, ?_⟩
  · intro path
    constructor
    · rintro h ⟨b, k, rfl⟩
      unfold minioFetch at h
      rw [hdrop] at h
      have hmem : '/' ∈ b ++ '/' :: k := List.mem_append_right b (List.mem_cons_self _ _)
      cases hs : splitFirst '/' (b ++ '/' :: k) with
      | none => exact splitFirst_ne_none_of_mem hmem hs
      | some pr =>
        rw [hs] at h
        cases pr
        exact FetchOutcome.noConfusion h
    · intro hne
      have hmem : '/' ∉ path := by
        intro hm
        obtain ⟨s, t, he⟩ := List.append_of_mem hm
        exact hne ⟨s, t, he⟩
      unfold minioFetch
      rw [hdrop, splitFirst_eq_none hmem]
  · intro b k hb
    unfold minioFetch
    rw [hdrop, splitFirst_append k hb]
  · intro name ext h1 h2 h3 h4 h5 h6
    have hkey_ne : name ++ '.' :: ext ≠ [] := by simp
    have hkey_dot : name ++ '.' :: ext ≠ ['.'] := by
      intro he
      have hlen := congrArg List.length he
      simp only [List.length_append, List.length_cons, List.length_nil] at hlen
      have hn : 0 < name.length := List.length_pos.mpr h1
      have hx : 0 < ext.length := List.length_pos.mpr h2
      omega
    have hslash : '/' ∉ name ++ '.' :: ext := by
      intro hm
      rcases List.mem_append.mp hm with hn | hcons
      · exact h5 hn
      · rcases List.mem_cons.mp hcons with he | hext
        · exact absurd he (by decide)
        · exact h6 hext
    have hname : pathlibName (name ++ '.' :: ext) = name ++ '.' :: ext := by
      unfold pathlibName
      rw [splitOnChar_not_mem hslash]
      simp [hkey_ne, hkey_dot]
    have hcond : 0 < name.length ∧ name.length + 1 < (name ++ '.' :: ext).length := by
      constructor
      · exact List.length_pos.mpr h1
      · rw [List.length_append, List.length_cons]
        have he : 0 < ext.length := List.length_pos.mpr h2
        omega
    unfold pathlibSuffix
    show (match rfindDot (pathlibName (name ++ '.' :: ext)) with
      | some i =>
        if 0 < i ∧ i + 1 < (pathlibName (name ++ '.' :: ext)).length
        then (⟨(pathlibName (name ++ '.' :: ext)).drop i⟩ : String) else ""
      | none => "") = (⟨'.' :: ext⟩ : String)
    rw [hname, rfindDot_append name ext h4]
    show (if 0 < name.length ∧ name.length + 1 < (name ++ '.' :: ext).length
      then (⟨(name ++ '.' :: ext).drop name.length⟩ : String) else "") = (⟨'.' :: ext⟩ : String)
    rw [if_pos hcond, List.drop_left]

/-- Claim C8, witness: `minio://docs/reports/q1.pdf` splits into bucket
`docs` and key `reports/q1.pdf`, and the temp-file suffix preserves the
key's `.pdf` extension. -/
theorem fetch_c8_witness :
    ('/' ∉ "docs".data) ∧
    minioFetch "minio://docs/reports/q1.pdf"
      = FetchOutcome.downloadedTemp "docs" "reports/q1.pdf" ".pdf" := by
  refine ⟨by decide, ?_⟩
  have h := fetch_c8.2.1 "docs".data "reports/q1.pdf".data (by decide)
  have e1 : (⟨"minio://".data ++ ("docs".data ++ '/' :: "reports/q1.pdf".data)⟩ : String)
      = "minio://docs/reports/q1.pdf" := by decide
  have e2 : (⟨"docs".data⟩ : String) = "docs" := by decide
  have e3 : (⟨"reports/q1.pdf".data⟩ : String) = "reports/q1.pdf" := by decide
  have e4 : pathlibSuffix ⟨"reports/q1.pdf".data⟩ = ".pdf" := by decide
  rw [e1, e2, e3, e4] at h
  exact h

/-! ### LIKE-pattern lemmas -/

theorem nil_mem_tails : ∀ (l : List Char), [] ∈ l.tails := by
  intro l
  induction l with
  | nil => simp
  | cons c rest ih => rw [List.tails_cons]; exact List.mem_cons_of_mem _ ih

/-- On a pattern made of ordinary characters followed by `'%'`, `likeMatch`
is exactly the prefix test. -/
theorem likeMatch_lit_percent :
    ∀ (w : List Char), (∀ c ∈ w, c ≠ '%' ∧ c ≠ '_' ∧ c ≠ '\\') →
      ∀ t : List Char, likeMatch (w ++ ['%']) t = w.isPrefixOf t := by
  intro w
  induction w with
  | nil =>
    intro _ t
    show likeMatch ['%'] t = _
    have h1 : likeMatch ['%'] t = t.tails.any (fun suf => likeMatch [] suf) := rfl
    rw [h1]
    have h2 : t.tails.any (fun suf => likeMatch [] suf) = true :=
      List.any_eq_true.mpr ⟨[], nil_mem_tails t, rfl⟩
    rw [h2]
    cases t <;> rfl
  | cons c w ih =>
    intro hcw t
    have hc := hcw c (List.mem_cons_self c w)
    have hw' : ∀ x ∈ w, x ≠ '%' ∧ x ≠ '_' ∧ x ≠ '\\' :=
      fun x hx => hcw x (List.mem_cons_of_mem c hx)
    cases t with
    | nil =>
      show likeMatch (c :: (w ++ ['%'])) [] = (c :: w).isPrefixOf []
      conv_lhs => rw [likeMatch.eq_def]
      simp only [if_neg hc.1, if_neg hc.2.1, if_neg hc.2.2]
      rfl
    | cons d ts =>
      show likeMatch (c :: (w ++ ['%'])) (d :: ts) = (c :: w).isPrefixOf (d :: ts)
      have hl : likeMatch (c :: (w ++ ['%'])) (d :: ts)
          = ((d == c) && likeMatch (w ++ ['%']) ts) := by
        conv_lhs => rw [likeMatch.eq_def]
        simp only [if_neg hc.1, if_neg hc.2.1, if_neg hc.2.2]
      have hr : (c :: w).isPrefixOf (d :: ts) = ((c == d) && w.isPrefixOf ts) := rfl
      rw [hl, hr, ih hw' ts]
      by_cases hcd : c = d
      · subst hcd; rfl
      · have h1 : (d == c) = false := by simp [Ne.symm hcd]
        have h2 : (c == d) = false := by simp [hcd]
        rw [h1, h2]

/-- For a search word free of LIKE metacharacters, matching the pattern
`%word%` coincides with substring containment. -/
theorem likeMatch_eq_contains (w : List Char)
    (hw : ∀ c ∈ w, c ≠ '%' ∧ c ≠ '_' ∧ c ≠ '\\') (t : List Char) :
    likeMatch ('%' :: (w ++ ['%'])) t = listContains w t := by
  have h1 : likeMatch ('%' :: (w ++ ['%'])) t
      = t.tails.any (fun suf => likeMatch (w ++ ['%']) suf) := by
    conv_lhs => rw [likeMatch.eq_def]
    rfl
  rw [h1]
  unfold listContains
  simp only [likeMatch_lit_percent w hw]

/-! ### Claim theorems for the Retrieval/Answer Service -/

theorem finishQa_ok {gen : String → String → String} {q : String}
    {rows : List StoredChunk} {ans : String} {cits : List Citation}
    (h : finishQa gen q rows = QaResult.ok ans cits) :
    cits = [] ∨ cits = rows.map mkCitation := by
  unfold finishQa at h
  split at h
  · injection h with h1 h2; exact Or.inl h2.symm
  · injection h with h1 h2; exact Or.inr h2.symm

theorem runSearch_ok {gen : String → String → String} {q : String} {k : Int}
    {rows : List StoredChunk} {ans : String} {cits : List Citation}
    (h : runSearch gen q k rows = QaResult.ok ans cits) :
    cits = [] ∨ cits = (rows.take k.toNat).map mkCitation := by
  unfold runSearch at h
  split at h
  · exact QaResult.noConfusion h
  · exact finishQa_ok h

theorem citations_prop {gen : String → String → String} {q : String} {k : Int}
    {ans : String} {cits : List Citation} (p : StoredChunk → Bool)
    (chunks : List StoredChunk)
    (h : runSearch gen q k (chunks.filter p) = QaResult.ok ans cits) :
    cits.length ≤ k.toNat ∧
    ∀ c ∈ cits, c.score = 1 ∧ ∃ ch ∈ chunks, p ch = true ∧
      ch.document_id = c.documentId ∧ ch.page_no = c.page := by
  rcases runSearch_ok h with rfl | rfl
  · exact ⟨Nat.zero_le _, by simp⟩
  · constructor
    · rw [List.length_map]
      exact List.length_take_le _ _
    · intro c hc
      obtain ⟨r, hr, hcr⟩ := List.mem_map.mp hc
      have hr' := List.mem_of_mem_take hr
      obtain ⟨hmem, hp⟩ := List.mem_filter.mp hr'
      subst hcr
      exact ⟨rfl, r, hmem, hp, rfl, rfl⟩

/-- Claim C5 (amended): for every query with at least one usable search
term, every 200 response of `qa` carries at most `top_k` citations, each
with the matched chunk's document identifier, its page number and the
constant score 1.0, and each citing a stored chunk that matches at least
one search term under case-insensitive SQL `LIKE '%term%'` semantics —
which is exactly case-insensitive *substring* containment whenever the
term contains no LIKE metacharacter (`%`, `_`, `\`), but not in general:
the terms are interpolated unescaped into the ILIKE pattern, so `%` and
`_` inside a term act as wildcards (see the counterexample). -/
theorem qa_c5_amended :
    (∀ (gen : String → String → String) (st : QaStore) (inp : QaIn)
        (ans : String) (cits : List Citation),
      queryWordsL inp.query.data ≠ [] →
      qa gen st inp = QaResult.ok ans cits →
      cits.length ≤ inp.top_k.toNat ∧
      ∀ c ∈ cits, c.score = 1 ∧
        ∃ ch ∈ st.chunks, ch.document_id = c.documentId ∧ ch.page_no = c.page ∧
          ∃ w ∈ queryWordsL inp.query.data,
            likeMatch ('%' :: (w ++ ['%'])) (ch.text.data.map Char.toLower) = true) ∧
    (∀ w : List Char, (∀ c ∈ w, c ≠ '%' ∧ c ≠ '_' ∧ c ≠ '\\') →
      ∀ t : List Char, likeMatch ('%' :: (w ++ ['%'])) t = listContains w t) := by
  constructor
  · intro gen st inp ans cits hw hqa
    unfold qa at hqa
    by_cases hA : stripChars inp.query.data = []
    · rw [if_pos hA] at hqa
      exact QaResult.noConfusion hqa
    rw [if_neg hA, if_neg hw] at hqa
    by_cases hB : st.chunks.length = 0
    · rw [if_pos hB] at hqa
      injection hqa with h1 h2
      subst h2
      exact ⟨Nat.zero_le _, by simp⟩
    rw [if_neg hB] at hqa
    cases hdoc : inp.documentId with
    | none =>
      rw [hdoc] at hqa
      have h := citations_prop _ st.chunks hqa
      refine ⟨h.1, ?_⟩
      intro c hc
      obtain ⟨hsc, ch, hch, hp, h3, h4⟩ := h.2 c hc
      obtain ⟨w, hwm, hl⟩ := List.any_eq_true.mp hp
      exact ⟨hsc, ch, hch, h3, h4, w, hwm, hl⟩
    | some did =>
      rw [hdoc] at hqa
      dsimp only at hqa
      by_cases h0 : did = 0
      · rw [if_neg (by simpa using h0)] at hqa
        have h := citations_prop _ st.chunks hqa
        refine ⟨h.1, ?_⟩
        intro c hc
        obtain ⟨hsc, ch, hch, hp, h3, h4⟩ := h.2 c hc
        obtain ⟨w, hwm, hl⟩ := List.any_eq_true.mp hp
        exact ⟨hsc, ch, hch, h3, h4, w, hwm, hl⟩
      rw [if_pos h0] at hqa
      by_cases hctn : st.documents.contains did = true
      · rw [if_pos hctn] at hqa
        have h := citations_prop _ st.chunks hqa
        refine ⟨h.1, ?_⟩
        intro c hc
        obtain ⟨hsc, ch, hch, hp, h3, h4⟩ := h.2 c hc
        have hp2 : chunkMatches (queryWordsL inp.query.data) ch = true := by
          simp only [Bool.and_eq_true] at hp
          exact hp.2
        obtain ⟨w, hwm, hl⟩ := List.any_eq_true.mp hp2
        exact ⟨hsc, ch, hch, h3, h4, w, hwm, hl⟩
      · rw [if_neg hctn] at hqa
        injection hqa with h1 h2
        subst h2
        exact ⟨Nat.zero_le _, by simp⟩
  · exact likeMatch_eq_contains

/-- Claim C5, counterexample to the original statement: the query `"a%b"`
has the single usable term `a%b`; against a store holding the one chunk
`"aXb"` the qa search returns that chunk as a citation (the unescaped `%`
in `ILIKE '%a%b%'` matches the `X`), yet `a%b` is *not* a substring of the
chunk text, case-insensitively or otherwise. -/
theorem qa_c5_counterexample :
    queryWordsL "a%b".data = ["a%b".data] ∧
    qa gen0 st5 ⟨"a%b", none, 6⟩
      = QaResult.ok "synthesized answer" [⟨1, 1, 1⟩] ∧
    listContains "a%b".data (("aXb" : String).data.map Char.toLower) = false :=
  ⟨by decide, by decide, by decide⟩

/-- Claim C5, witness: the query `"refund"` against a store with one
matching chunk returns one citation (≤ top_k = 6) carrying the chunk's
document id 1, page 2 and score 1, with the term matching under the LIKE
semantics (equivalently, as a substring: `refund` has no metacharacter). -/
theorem qa_c5_witness :
    queryWordsL "refund".data ≠ [] ∧
    (([(⟨1, 2, 1⟩ : Citation)] : List Citation).length ≤ ((6 : Int)).toNat ∧
      ∀ c ∈ [(⟨1, 2, 1⟩ : Citation)], c.score = 1 ∧
        ∃ ch ∈ st5w.chunks, ch.document_id = c.documentId ∧ ch.page_no = c.page ∧
          ∃ w ∈ queryWordsL "refund".data,
            likeMatch ('%' :: (w ++ ['%'])) (ch.text.data.map Char.toLower) = true) :=
  ⟨by decide,
    qa_c5_amended.1 gen0 st5w ⟨"refund", none, 6⟩ "synthesized answer" _
      (by decide) (by decide)⟩

/-- The fixed not-found answer can never coincide with the fixed no-match
answer (their first characters differ). -/
theorem docNotFound_ne_noMatch (did : Int) :
    docNotFoundAnswer did ≠ noMatchAnswer := by
  intro h
  have h2 := congrArg (fun s => s.data.head?) h
  have e1 : (docNotFoundAnswer did).data.head? = some 'D' := by
    unfold docNotFoundAnswer
    rw [String.data_append, String.data_append]
    rfl
  have e2 : noMatchAnswer.data.head? = some 'I' := rfl
  simp only at h2
  rw [e1, e2] at h2
  exact absurd h2 (by decide)

theorem contains_eq_false_of_not_mem {l : List Int} {a : Int} (h : a ∉ l) :
    l.contains a = false := by
  by_contra hc
  simp only [Bool.not_eq_false] at hc
  exact h (List.elem_iff.mp hc)

/-- Claim C6 (amended): a qa request whose query passes validation and
yields at least one usable term, arriving when the chunk store is
non-empty, with a **non-zero** document-scope identifier that matches no
stored Document, returns the 200 response with the fixed "document not
found" answer and no citations — a response provably distinct from the
no-match response.  The original claim fails for the identifier 0: Python
`if inp.documentId:` treats 0 like "no scope given", so the existence
check is skipped and all documents are searched (see the counterexample);
it also does not hold when an earlier guard (empty store, no usable terms)
fires first. -/
theorem qa_c6_amended (gen : String → String → String) (st : QaStore)
    (inp : QaIn) (did : Int) (hdoc : inp.documentId = some did) (h0 : did ≠ 0)
    (hmem : did ∉ st.documents) (h1 : pyStrip inp.query ≠ "")
    (h2 : queryWordsL inp.query.data ≠ []) (h3 : st.chunks ≠ []) :
    qa gen st inp = QaResult.ok (docNotFoundAnswer did) [] ∧
    docNotFoundAnswer did ≠ noMatchAnswer := by
  refine ⟨?_, docNotFound_ne_noMatch did⟩
  have hg : stripChars inp.query.data ≠ [] := by
    intro he
    apply h1
    unfold pyStrip
    rw [he]
  have hlen : ¬ st.chunks.length = 0 := by
    simpa [List.length_eq_zero] using h3
  unfold qa
  rw [if_neg hg, if_neg h2, if_neg hlen, hdoc]
  show (if did ≠ 0 then _ else _) = _
  rw [if_pos h0, if_neg (by rw [contains_eq_false_of_not_mem hmem]; exact Bool.false_ne_true)]

/-- Claim C6, counterexample to the original statement: document id 0 is
stored nowhere, yet the request `{"query": "hello", "documentId": 0}` does
not get the "document not found" response — Python's truthiness test
`if inp.documentId:` routes a zero id to the unscoped search, which here
returns a match from document 1. -/
theorem qa_c6_counterexample :
    (0 : Int) ∉ st6.documents ∧
    qa gen0 st6 ⟨"hello", some 0, 6⟩
      = QaResult.ok "synthesized answer" [⟨1, 1, 1⟩] ∧
    QaResult.ok "synthesized answer" [(⟨1, 1, 1⟩ : Citation)]
      ≠ QaResult.ok (docNotFoundAnswer 0) [] :=
  ⟨by decide, by decide, by decide⟩

/-- Claim C6, witness: the unknown (non-zero) document id 2 yields the
fixed not-found response with empty citations. -/
theorem qa_c6_witness :
    qa gen0 st6 ⟨"hello", some 2, 6⟩ = QaResult.ok (docNotFoundAnswer 2) [] ∧
    docNotFoundAnswer 2 ≠ noMatchAnswer :=
  qa_c6_amended gen0 st6 ⟨"hello", some 2, 6⟩ 2 rfl (by decide) (by decide)
    (by decide) (by decide) (by decide)

/-- Claim C10 (amended): every qa request that passes validation and
yields at least one usable search term, arriving when the chunk store is
empty, returns the 200 response with the fixed "no documents have been
processed yet" answer and empty citations — for *every* document scope
(even a dangling one: the check runs before the scope lookup) and every
answer generator (none is ever consulted).  The original "every qa
request" fails for requests with no usable term, which get the "more
specific question" answer first (see the counterexample), and for
empty/whitespace queries, which get a 422 error. -/
theorem qa_c10_amended (gen : String → String → String) (docs : List Int)
    (inp : QaIn) (h1 : pyStrip inp.query ≠ "")
    (h2 : queryWordsL inp.query.data ≠ []) :
    qa gen ⟨docs, []⟩ inp = QaResult.ok noDocsAnswer [] := by
  have hg : stripChars inp.query.data ≠ [] := by
    intro he
    apply h1
    unfold pyStrip
    rw [he]
  unfold qa
  rw [if_neg hg, if_neg h2]
  rfl

/-- Claim C10, counterexample to the original statement: with an empty
chunk store, the request `{"query": "a"}` (non-empty, but its only token
has length 1) returns the "more specific question" answer, not the "no
documents have been processed yet" answer. -/
theorem qa_c10_counterexample :
    qa gen0 ⟨[], []⟩ ⟨"a", none, 6⟩ = QaResult.ok moreSpecificAnswer [] ∧
    moreSpecificAnswer ≠ noDocsAnswer :=
  ⟨by decide, by decide⟩

/-- Claim C10, witness: with an empty store, a usable query returns the
fixed answer even though the requested document scope (99) is dangling. -/
theorem qa_c10_witness :
    qa gen0 ⟨[5], []⟩ ⟨"hello", some 99, 6⟩ = QaResult.ok noDocsAnswer [] :=
  qa_c10_amended gen0 [5] ⟨"hello", some 99, 6⟩ (by decide) (by decide)

end DocViewer
